import Mathlib

/-!
Verification of the top-k probability codec and the tokenizer equivalence
checker of the bittensor tokenizer utilities, as exercised by
`tests/unit_tests/bittensor_tests/utils/test_tokenizer_utils.py`.

The codec functions `encode_forward_response_tensor` and
`decode_forward_response_tensor` are defined in that file and operate
independently on every batch element and sequence position, so they are
embedded here as functions on a single position: a `List ℝ` of per-vocabulary
scores.  Tensor arithmetic is idealized as exact real arithmetic;
`torch.softmax` and `torch.log` become `Real.exp`/`Real.log`.
-/

namespace TokenizerUtils

/-- Machine epsilon used throughout the codec: `1e-64` (EPSILON in the test file
and the literal in `decode_forward_response_tensor`). -/
noncomputable def eps : ℝ := 1 / 10 ^ 64

lemma eps_pos : 0 < eps := by norm_num [eps]

/-- Model of `torch.clamp(x, lo, hi)`. -/
noncomputable def clamp (x lo hi : ℝ) : ℝ := max lo (min x hi)

/-- Model of `torch.softmax(logits, dim=-1)` at one position. -/
noncomputable def softmax (x : List ℝ) : List ℝ :=
  x.map (fun v => Real.exp v / (x.map Real.exp).sum)

/-- Comparison used to model `probs.sort(dim=-1, descending=True)`: pairs of
(probability, original index), ordered by descending probability. -/
def rdesc (a b : ℝ × ℕ) : Prop := b.1 ≤ a.1

noncomputable instance : DecidableRel rdesc := fun a b => Real.decidableLE b.1 a.1

instance : IsTotal (ℝ × ℕ) rdesc := ⟨fun a b => le_total b.1 a.1⟩

instance : IsTrans (ℝ × ℕ) rdesc := ⟨fun _ _ _ hab hbc => le_trans hbc hab⟩

/-- Model of `values, indices = probs.sort(dim=-1, descending=True)`: each
probability is paired with its original vocabulary index and the pairs are
sorted by descending probability. -/
noncomputable def sortDescPairs (p : List ℝ) : List (ℝ × ℕ) :=
  List.insertionSort rdesc (p.zip (List.range p.length))

/-- Model of `topk_values = values[..., :topk]`. -/
noncomputable def topkValues (x : List ℝ) (topk : ℕ) : List ℝ :=
  ((sortDescPairs (softmax x)).map Prod.fst).take topk

/-- Model of `topk_indices = indices[..., :topk]`. -/
noncomputable def topkIndices (x : List ℝ) (topk : ℕ) : List ℕ :=
  ((sortDescPairs (softmax x)).map Prod.snd).take topk

/-- Model of `encode_forward_response_tensor` at one position: softmax the
unnormalized logits, sort descending, keep the top-k values and indices and
concatenate them (indices stored as floats, as `torch.cat` casts them). -/
noncomputable def encode_forward_response_tensor (x : List ℝ) (topk : ℕ) : List ℝ :=
  topkValues x topk ++ (topkIndices x topk).map (fun i : ℕ => (i : ℝ))

/-- Batched `encode_forward_response_tensor`: the source applies the same
per-position computation along the last dimension of a
[batch, sequence_len, vocab] tensor. -/
noncomputable def encodeBatch (t : List (List (List ℝ))) (topk : ℕ) : List (List (List ℝ)) :=
  t.map (fun b => b.map (fun x => encode_forward_response_tensor x topk))

/-- Model of `logits.scatter_(-1, topk_indices, src)`: sequentially write each
(index, value) pair into the base list.  `List.set` at an out-of-range index is
the identity. -/
def scatter (base : List ℝ) (upd : List (ℕ × ℝ)) : List ℝ :=
  upd.foldl (fun acc p => acc.set p.1 p.2) base

/-- Model of `decode_forward_response_tensor` at one position: split the
encoded vector into top-k values and (float-encoded, truncated back with
`.long()`) indices, compute the clamped remainder mass and the uniform floor,
fill the output with `log floor`, then scatter `log (value + 1e-64)` at the
top-k indices. -/
noncomputable def decode_forward_response_tensor (enc : List ℝ) (vocab_size topk : ℕ) : List ℝ :=
  let topk_values := enc.take topk
  let topk_indices := (enc.drop topk).map (fun x => (Int.floor x).toNat)
  let topk_pmass := topk_values.sum
  let remainder_pmass := clamp (1 - topk_pmass) eps 1
  let remainder_floor := remainder_pmass / ((vocab_size : ℝ) - (topk : ℝ))
  scatter (List.replicate vocab_size (Real.log remainder_floor))
    (topk_indices.zip (topk_values.map (fun v => Real.log (v + eps))))

/-- Read the log-space output of `decode_forward_response_tensor` back as
probabilities by exponentiation (the reading fixed by the specification). -/
noncomputable def decodedProbs (enc : List ℝ) (vocab_size topk : ℕ) : List ℝ :=
  (decode_forward_response_tensor enc vocab_size topk).map Real.exp

/-- Modelled from the spec: a tokenizer capability reduced to the data the
equivalence checker inspects — its vocabulary and merge rules.  The real class
comes from the tokenizer library; `bittensor.utils.tokenizer_utils`, where the
checker is implemented, is not part of this excerpt. -/
structure Tokenizer where
  vocab : List String
  merges : List (String × String)

/-- Modelled from the spec: `check_tokenizer_equivalence(A, B)` is true iff A
and B have identical vocabulary and merge rules (so they produce
token-for-token identical output on every probe string).  It is a pure
function: deterministic and side-effect-free, with no network or model calls.
The implementation lives in `bittensor.utils.tokenizer_utils`, absent from
this excerpt. -/
def check_tokenizer_equivalence (a b : Tokenizer) : Bool :=
  decide (a.vocab = b.vocab ∧ a.merges = b.merges)

/-- Modelled from the spec: loading a named tokenizer
(`AutoTokenizer.from_pretrained(name)`) is a lookup of the tokenizer
registered under that name, so two independent loads of the same name yield
structurally identical tokenizers. -/
def load_tokenizer (registry : String → Tokenizer) (name : String) : Tokenizer :=
  registry name

/-! ### Generic list lemmas -/

lemma sum_set (l : List ℝ) (i : ℕ) (a : ℝ) (h : i < l.length) :
    (l.set i a).sum = l.sum - l.getD i 0 + a := by
  induction l generalizing i with
  | nil => simp at h
  | cons x xs ih =>
      cases i with
      | zero => simp [List.sum_cons]; ring
      | succ n =>
          simp only [List.set_cons_succ, List.sum_cons, List.getD_cons_succ]
          rw [ih n (by simpa using h)]
          ring

lemma getD_set_ne (l : List ℝ) (i j : ℕ) (a : ℝ) (h : i ≠ j) :
    (l.set i a).getD j 0 = l.getD j 0 := by
  rw [List.getD_eq_getElem?_getD, List.getD_eq_getElem?_getD, List.getElem?_set_ne h]

lemma getD_replicate (n : ℕ) (c : ℝ) (i : ℕ) (h : i < n) :
    (List.replicate n c).getD i 0 = c := by
  rw [List.getD_eq_getElem?_getD, List.getElem?_replicate, if_pos h]
  rfl

lemma length_filter_split (l : List ℕ) (p : ℕ → Bool) :
    (l.filter p).length + (l.filter (fun a => !(p a))).length = l.length := by
  induction l with
  | nil => rfl
  | cons x xs ih =>
      cases hpx : p x <;> simp [List.filter_cons, hpx] <;> omega

lemma sum_map_div (l : List ℝ) (c : ℝ) : (l.map (fun v => v / c)).sum = l.sum / c := by
  induction l with
  | nil => simp
  | cons x xs ih => simp [List.sum_cons, ih, add_div]

lemma sum_map_add_const (l : List ℝ) (c : ℝ) :
    (l.map (fun v => v + c)).sum = l.sum + l.length * c := by
  induction l with
  | nil => simp
  | cons x xs ih =>
      simp only [List.map_cons, List.sum_cons, ih, List.length_cons]
      push_cast
      ring

lemma sum_take_le (l : List ℝ) (n : ℕ) (h : ∀ v ∈ l, 0 ≤ v) :
    (l.take n).sum ≤ l.sum := by
  have hsplit := List.sum_take_add_sum_drop l n
  have hdrop : 0 ≤ (l.drop n).sum :=
    List.sum_nonneg (fun v hv => h v (List.mem_of_mem_drop hv))
  linarith

/-! ### Scatter lemmas -/

lemma scatter_nil (base : List ℝ) : scatter base [] = base := rfl

lemma scatter_cons (base : List ℝ) (p : ℕ × ℝ) (upd : List (ℕ × ℝ)) :
    scatter base (p :: upd) = scatter (base.set p.1 p.2) upd := rfl

lemma scatter_length (base : List ℝ) (upd : List (ℕ × ℝ)) :
    (scatter base upd).length = base.length := by
  induction upd generalizing base with
  | nil => rfl
  | cons p rest ih => rw [scatter_cons, ih, List.length_set]

lemma scatter_getElem?_not_mem (base : List ℝ) (upd : List (ℕ × ℝ)) (pos : ℕ)
    (h : pos ∉ upd.map Prod.fst) : (scatter base upd)[pos]? = base[pos]? := by
  induction upd generalizing base with
  | nil => rfl
  | cons p rest ih =>
      simp only [List.map_cons, List.mem_cons, not_or] at h
      rw [scatter_cons, ih _ h.2, List.getElem?_set_ne (Ne.symm h.1)]

lemma scatter_getElem?_nodup (base : List ℝ) (upd : List (ℕ × ℝ))
    (hnd : (upd.map Prod.fst).Nodup) (j : ℕ) (hj : j < upd.length)
    (hlt : (upd.get ⟨j, hj⟩).1 < base.length) :
    (scatter base upd)[(upd.get ⟨j, hj⟩).1]? = some (upd.get ⟨j, hj⟩).2 := by
  induction upd generalizing base j with
  | nil => simp at hj
  | cons p rest ih =>
      simp only [List.map_cons, List.nodup_cons] at hnd
      cases j with
      | zero =>
          simp only [List.get] at hlt ⊢
          rw [scatter_cons, scatter_getElem?_not_mem _ _ _ hnd.1,
            List.getElem?_set_self (by simpa using hlt)]
      | succ n =>
          simp only [List.get] at hlt ⊢
          rw [scatter_cons]
          exact ih (base.set p.1 p.2) hnd.2 n (by simpa using hj)
            (by simpa [List.length_set] using hlt)

lemma scatter_sum (base : List ℝ) (upd : List (ℕ × ℝ))
    (hnd : (upd.map Prod.fst).Nodup) (hlt : ∀ p ∈ upd, p.1 < base.length) :
    (scatter base upd).sum
      = base.sum - (upd.map (fun p => base.getD p.1 0)).sum + (upd.map Prod.snd).sum := by
  induction upd generalizing base with
  | nil => simp [scatter_nil]
  | cons p rest ih =>
      simp only [List.map_cons, List.nodup_cons] at hnd
      have hne : ∀ q ∈ rest, p.1 ≠ q.1 := by
        intro q hq hpq
        exact hnd.1 (hpq ▸ List.mem_map_of_mem Prod.fst hq)
      rw [scatter_cons, ih _ hnd.2
        (fun q hq => by rw [List.length_set]; exact hlt q (List.mem_cons_of_mem _ hq))]
      have h1 : (base.set p.1 p.2).sum = base.sum - base.getD p.1 0 + p.2 :=
        sum_set _ _ _ (hlt p (List.mem_cons_self p rest))
      have h2 : rest.map (fun q => (base.set p.1 p.2).getD q.1 0)
          = rest.map (fun q => base.getD q.1 0) :=
        List.map_congr_left (fun q hq => getD_set_ne _ _ _ _ (hne q hq))
      rw [h1, h2]
      simp only [List.map_cons, List.sum_cons]
      ring

lemma scatter_mem (base : List ℝ) (upd : List (ℕ × ℝ)) (y : ℝ)
    (hy : y ∈ scatter base upd) : y ∈ base ∨ y ∈ upd.map Prod.snd := by
  induction upd generalizing base with
  | nil => exact Or.inl hy
  | cons p rest ih =>
      rw [scatter_cons] at hy
      rcases ih _ hy with h | h
      · rcases List.mem_or_eq_of_mem_set h with h2 | h2
        · exact Or.inl h2
        · exact Or.inr (by simp [h2])
      · exact Or.inr (by simp [List.map_cons]; right; simpa using h)

lemma map_scatter (f : ℝ → ℝ) (base : List ℝ) (upd : List (ℕ × ℝ)) :
    (scatter base upd).map f = scatter (base.map f) (upd.map (fun p => (p.1, f p.2))) := by
  induction upd generalizing base with
  | nil => rfl
  | cons p rest ih =>
      simp only [List.map_cons]
      rw [scatter_cons, scatter_cons, ih, List.map_set]

/-! ### Sorted pair lemmas -/

lemma sortDescPairs_perm (p : List ℝ) :
    (sortDescPairs p).Perm (p.zip (List.range p.length)) :=
  List.perm_insertionSort rdesc _

lemma sortDescPairs_length (p : List ℝ) : (sortDescPairs p).length = p.length := by
  rw [(sortDescPairs_perm p).length_eq, List.length_zip, List.length_range]
  exact min_self _

lemma map_fst_sortDescPairs_perm (p : List ℝ) : ((sortDescPairs p).map Prod.fst).Perm p := by
  have h := (sortDescPairs_perm p).map Prod.fst
  rwa [List.map_fst_zip _ _ (by rw [List.length_range])] at h

lemma map_snd_sortDescPairs_perm (p : List ℝ) :
    ((sortDescPairs p).map Prod.snd).Perm (List.range p.length) := by
  have h := (sortDescPairs_perm p).map Prod.snd
  rwa [List.map_snd_zip _ _ (by rw [List.length_range])] at h

lemma sortDescPairs_sorted (p : List ℝ) : List.Sorted rdesc (sortDescPairs p) :=
  List.sorted_insertionSort rdesc _

lemma sortDescPairs_mem (p : List ℝ) (pr : ℝ × ℕ) (h : pr ∈ sortDescPairs p) :
    pr.2 < p.length ∧ p.getD pr.2 0 = pr.1 := by
  have hz : pr ∈ p.zip (List.range p.length) := (sortDescPairs_perm p).mem_iff.mp h
  obtain ⟨j, hj, hje⟩ := List.mem_iff_getElem.mp hz
  have hjp : j < p.length := by
    rw [List.length_zip, List.length_range] at hj
    simpa using hj
  rw [List.getElem_zip, List.getElem_range] at hje
  refine ⟨by rw [← hje]; exact hjp, ?_⟩
  rw [← hje]
  simp [List.getD_eq_getElem?_getD, List.getElem?_eq_getElem hjp]

/-! ### Softmax lemmas -/

lemma softmax_length (x : List ℝ) : (softmax x).length = x.length :=
  List.length_map x _

lemma exp_sum_pos (x : List ℝ) (hx : x ≠ []) : 0 < (x.map Real.exp).sum := by
  refine List.sum_pos _ (fun v hv => ?_) (fun h => hx ?_)
  · obtain ⟨a, _, rfl⟩ := List.mem_map.mp hv
    exact Real.exp_pos a
  · simpa using h

lemma exp_sum_nonneg (x : List ℝ) : 0 ≤ (x.map Real.exp).sum := by
  refine List.sum_nonneg (fun v hv => ?_)
  obtain ⟨a, _, rfl⟩ := List.mem_map.mp hv
  exact (Real.exp_pos a).le

lemma softmax_nonneg (x : List ℝ) (v : ℝ) (hv : v ∈ softmax x) : 0 ≤ v := by
  obtain ⟨a, _, rfl⟩ := List.mem_map.mp hv
  exact div_nonneg (Real.exp_pos a).le (exp_sum_nonneg x)

lemma softmax_pos (x : List ℝ) (hx : x ≠ []) (v : ℝ) (hv : v ∈ softmax x) : 0 < v := by
  obtain ⟨a, _, rfl⟩ := List.mem_map.mp hv
  exact div_pos (Real.exp_pos a) (exp_sum_pos x hx)

lemma softmax_le_one (x : List ℝ) (hx : x ≠ []) (v : ℝ) (hv : v ∈ softmax x) : v ≤ 1 := by
  obtain ⟨a, ha, rfl⟩ := List.mem_map.mp hv
  rw [div_le_one (exp_sum_pos x hx)]
  exact List.single_le_sum
    (fun b hb => by
      obtain ⟨c, _, rfl⟩ := List.mem_map.mp hb
      exact (Real.exp_pos c).le)
    _ (List.mem_map_of_mem Real.exp ha)

lemma softmax_sum (x : List ℝ) (hx : x ≠ []) : (softmax x).sum = 1 := by
  have hrw : softmax x
      = (x.map Real.exp).map (fun v => v / (x.map Real.exp).sum) := by
    simp [softmax, List.map_map, Function.comp]
  rw [hrw, sum_map_div, div_self (ne_of_gt (exp_sum_pos x hx))]

/-! ### Structure of the encoder output -/

lemma topkValues_length (x : List ℝ) (k : ℕ) (hk : k ≤ x.length) :
    (topkValues x k).length = k := by
  rw [topkValues, List.length_take, List.length_map, sortDescPairs_length, softmax_length]
  omega

lemma topkIndices_length (x : List ℝ) (k : ℕ) (hk : k ≤ x.length) :
    (topkIndices x k).length = k := by
  rw [topkIndices, List.length_take, List.length_map, sortDescPairs_length, softmax_length]
  omega

lemma topkValues_mem (x : List ℝ) (k : ℕ) (v : ℝ) (hv : v ∈ topkValues x k) :
    v ∈ softmax x :=
  (map_fst_sortDescPairs_perm (softmax x)).mem_iff.mp (List.mem_of_mem_take hv)

lemma topkIndices_nodup (x : List ℝ) (k : ℕ) : (topkIndices x k).Nodup :=
  List.Nodup.sublist (List.take_sublist _ _)
    ((map_snd_sortDescPairs_perm (softmax x)).nodup_iff.mpr (List.nodup_range _))

lemma topkIndices_lt (x : List ℝ) (k : ℕ) (i : ℕ) (hi : i ∈ topkIndices x k) :
    i < x.length := by
  have h := (map_snd_sortDescPairs_perm (softmax x)).mem_iff.mp (List.mem_of_mem_take hi)
  rw [softmax_length] at h
  exact List.mem_range.mp h

lemma topkValues_sorted (x : List ℝ) (k : ℕ) :
    List.Sorted (fun a b : ℝ => b ≤ a) (topkValues x k) := by
  have h2 : List.Pairwise (fun a b : ℝ => b ≤ a)
      ((sortDescPairs (softmax x)).map Prod.fst) :=
    List.Pairwise.map Prod.fst (fun _ _ hab => hab) (sortDescPairs_sorted (softmax x))
  exact List.Pairwise.sublist (List.take_sublist _ _) h2

lemma encode_take (x : List ℝ) (k : ℕ) (hk : k ≤ x.length) :
    (encode_forward_response_tensor x k).take k = topkValues x k := by
  rw [encode_forward_response_tensor]
  exact List.take_left' (topkValues_length x k hk)

lemma encode_drop (x : List ℝ) (k : ℕ) (hk : k ≤ x.length) :
    (encode_forward_response_tensor x k).drop k = (topkIndices x k).map (fun i : ℕ => (i : ℝ)) := by
  rw [encode_forward_response_tensor]
  exact List.drop_left' (topkValues_length x k hk)

/-! ### Structure of the decoder -/

lemma decode_append (vals : List ℝ) (idx : List ℕ) (V : ℕ) :
    decode_forward_response_tensor (vals ++ idx.map (fun i : ℕ => (i : ℝ))) V vals.length =
      scatter
        (List.replicate V
          (Real.log (clamp (1 - vals.sum) eps 1 / ((V : ℝ) - (vals.length : ℝ)))))
        (idx.zip (vals.map (fun v => Real.log (v + eps)))) := by
  have hcast : ∀ l : List ℕ, (l.map (fun i : ℕ => (i : ℝ))).map (fun x => (Int.floor x).toNat) = l := by
    intro l
    induction l with
    | nil => rfl
    | cons i rest ih =>
        simp only [List.map_cons, Int.floor_natCast, Int.toNat_natCast, ih]
  have hidx : ((vals ++ idx.map (fun i : ℕ => (i : ℝ))).drop vals.length).map
      (fun x => (Int.floor x).toNat) = idx := by
    rw [List.drop_left, hcast idx]
  simp only [decode_forward_response_tensor, List.take_left, hidx]

lemma decode_encode (x : List ℝ) (k : ℕ) (hk : k ≤ x.length) :
    decode_forward_response_tensor (encode_forward_response_tensor x k) x.length k =
      scatter
        (List.replicate x.length
          (Real.log (clamp (1 - (topkValues x k).sum) eps 1 / ((x.length : ℝ) - (k : ℝ)))))
        ((topkIndices x k).zip ((topkValues x k).map (fun v => Real.log (v + eps)))) := by
  have h := decode_append (topkValues x k) (topkIndices x k) x.length
  rw [topkValues_length x k hk] at h
  exact h

lemma zip_map_exp_log (idx : List ℕ) (vals : List ℝ) (h : ∀ v ∈ vals, 0 < v + eps) :
    (idx.zip (vals.map (fun v => Real.log (v + eps)))).map (fun p => (p.1, Real.exp p.2))
      = idx.zip (vals.map (fun v => v + eps)) := by
  induction idx generalizing vals with
  | nil => simp
  | cons i rest ih =>
      cases vals with
      | nil => simp
      | cons v vs =>
          simp only [List.map_cons, List.zip_cons_cons]
          rw [Real.exp_log (h v (List.mem_cons_self v vs)),
            ih vs (fun w hw => h w (List.mem_cons_of_mem v hw))]

lemma decodedProbs_encode (x : List ℝ) (k : ℕ) (hk : k ≤ x.length) :
    decodedProbs (encode_forward_response_tensor x k) x.length k =
      scatter
        (List.replicate x.length
          (Real.exp (Real.log (clamp (1 - (topkValues x k).sum) eps 1 / ((x.length : ℝ) - (k : ℝ))))))
        ((topkIndices x k).zip ((topkValues x k).map (fun v => v + eps))) := by
  rw [decodedProbs, decode_encode x k hk, map_scatter, List.map_replicate]
  congr 1
  refine zip_map_exp_log _ _ (fun v hv => ?_)
  have := softmax_nonneg x v (topkValues_mem x k v hv)
  have := eps_pos
  linarith

/-! ### Decoder output entries -/

lemma decodedProbs_append_scatter (vals : List ℝ) (idx : List ℕ) (V : ℕ)
    (hnn : ∀ v ∈ vals, 0 ≤ v) :
    decodedProbs (vals ++ idx.map (fun i : ℕ => (i : ℝ))) V vals.length =
      scatter
        (List.replicate V
          (Real.exp (Real.log (clamp (1 - vals.sum) eps 1 / ((V : ℝ) - (vals.length : ℝ))))))
        (idx.zip (vals.map (fun v => v + eps))) := by
  rw [decodedProbs, decode_append, map_scatter, List.map_replicate]
  congr 1
  exact zip_map_exp_log _ _ (fun v hv => by have h1 := hnn v hv; have h2 := eps_pos; linarith)

lemma scatter_replicate_getD_mem (c : ℝ) (V : ℕ) (idx : List ℕ) (w : List ℝ)
    (hnd : idx.Nodup) (hlen : idx.length = w.length) (hlt : ∀ i ∈ idx, i < V)
    (j : ℕ) (hj : j < idx.length) :
    (scatter (List.replicate V c) (idx.zip w)).getD (idx.getD j 0) 0 = w.getD j 0 := by
  have hjw : j < w.length := hlen ▸ hj
  have hjz : j < (idx.zip w).length := by
    rw [List.length_zip]
    omega
  have hget : (idx.zip w).get ⟨j, hjz⟩ = (idx.get ⟨j, hj⟩, w.get ⟨j, hjw⟩) := by
    simp [List.get_eq_getElem, List.getElem_zip]
  have hfst : (idx.zip w).map Prod.fst = idx :=
    List.map_fst_zip idx w (le_of_eq hlen)
  have hlt2 : ((idx.zip w).get ⟨j, hjz⟩).1 < (List.replicate V c).length := by
    rw [hget, List.length_replicate]
    exact hlt _ (List.get_mem idx j hj)
  have h := scatter_getElem?_nodup (List.replicate V c) (idx.zip w)
    (by rw [hfst]; exact hnd) j hjz hlt2
  rw [hget] at h
  have hidxD : idx.getD j 0 = idx.get ⟨j, hj⟩ := by
    rw [List.getD_eq_getElem?_getD, List.getElem?_eq_getElem hj]
    rfl
  have hwD : w.getD j 0 = w.get ⟨j, hjw⟩ := by
    rw [List.getD_eq_getElem?_getD, List.getElem?_eq_getElem hjw]
    rfl
  rw [hidxD, hwD, List.getD_eq_getElem?_getD, h]
  rfl

lemma scatter_replicate_getD_not_mem (c : ℝ) (V : ℕ) (idx : List ℕ) (w : List ℝ)
    (hlen : idx.length = w.length) (pos : ℕ) (hpos : pos < V) (hmem : pos ∉ idx) :
    (scatter (List.replicate V c) (idx.zip w)).getD pos 0 = c := by
  have hfst : (idx.zip w).map Prod.fst = idx :=
    List.map_fst_zip idx w (le_of_eq hlen)
  rw [List.getD_eq_getElem?_getD, scatter_getElem?_not_mem _ _ _ (by rw [hfst]; exact hmem),
    List.getElem?_replicate, if_pos hpos]
  rfl

/-- Entries of `decode(encode(x, k))`, read back as probabilities, at the j-th
top-k vocabulary id: the j-th top-k softmax value plus `eps`. -/
lemma decodedProbs_encode_getD (x : List ℝ) (k j : ℕ) (hk : k ≤ x.length) (hj : j < k) :
    (decodedProbs (encode_forward_response_tensor x k) x.length k).getD
        ((topkIndices x k).getD j 0) 0
      = (topkValues x k).getD j 0 + eps := by
  have hvlen : (topkValues x k).length = k := topkValues_length x k hk
  have hilen : (topkIndices x k).length = k := topkIndices_length x k hk
  have henc : decodedProbs (encode_forward_response_tensor x k) x.length k
      = scatter
        (List.replicate x.length
          (Real.exp (Real.log (clamp (1 - (topkValues x k).sum) eps 1 / ((x.length : ℝ) - (k : ℝ))))))
        ((topkIndices x k).zip ((topkValues x k).map (fun v => v + eps))) :=
    decodedProbs_encode x k hk
  rw [henc]
  have hmap : ((topkValues x k).map (fun v => v + eps)).getD j 0
      = (topkValues x k).getD j 0 + eps := by
    have hjv : j < (topkValues x k).length := by omega
    rw [List.getD_eq_getElem?_getD, List.getD_eq_getElem?_getD,
      List.getElem?_eq_getElem (by rw [List.length_map]; omega : j < ((topkValues x k).map (fun v => v + eps)).length),
      List.getElem?_eq_getElem hjv]
    simp [List.getElem_map]
  rw [← hmap]
  exact scatter_replicate_getD_mem _ _ _ _ (topkIndices_nodup x k)
    (by rw [List.length_map]; omega) (fun i hi => topkIndices_lt x k i hi) j (by omega)

/-- The j-th top-k (value, index) pair of the encoder belongs to the sorted
pair list, hence the value is the softmax entry at that vocabulary id. -/
lemma topk_pair_mem (x : List ℝ) (k j : ℕ) (hk : k ≤ x.length) (hj : j < k) :
    ((topkValues x k).getD j 0, (topkIndices x k).getD j 0) ∈ sortDescPairs (softmax x) := by
  have hplen : (sortDescPairs (softmax x)).length = x.length := by
    rw [sortDescPairs_length, softmax_length]
  have hjp : j < (sortDescPairs (softmax x)).length := by omega
  have hv : (topkValues x k).getD j 0 = ((sortDescPairs (softmax x)).get ⟨j, hjp⟩).1 := by
    rw [topkValues, List.getD_eq_getElem?_getD,
      List.getElem?_eq_getElem (by
        rw [List.length_take, List.length_map, hplen]
        omega : j < (((sortDescPairs (softmax x)).map Prod.fst).take k).length)]
    simp [List.getElem_take, List.getElem_map, List.get_eq_getElem]
  have hi : (topkIndices x k).getD j 0 = ((sortDescPairs (softmax x)).get ⟨j, hjp⟩).2 := by
    rw [topkIndices, List.getD_eq_getElem?_getD,
      List.getElem?_eq_getElem (by
        rw [List.length_take, List.length_map, hplen]
        omega : j < (((sortDescPairs (softmax x)).map Prod.snd).take k).length)]
    simp [List.getElem_take, List.getElem_map, List.get_eq_getElem]
  rw [hv, hi]
  exact List.get_mem _ _ _

lemma topkValues_sum_nonneg (x : List ℝ) (k : ℕ) : 0 ≤ (topkValues x k).sum :=
  List.sum_nonneg (fun v hv => softmax_nonneg x v (topkValues_mem x k v hv))

lemma topkValues_sum_le_one (x : List ℝ) (k : ℕ) (hx : x ≠ []) : (topkValues x k).sum ≤ 1 := by
  have h1 : ((sortDescPairs (softmax x)).map Prod.fst).sum = (softmax x).sum :=
    (map_fst_sortDescPairs_perm (softmax x)).sum_eq
  have h2 := sum_take_le ((sortDescPairs (softmax x)).map Prod.fst) k
    (fun v hv => softmax_nonneg x v ((map_fst_sortDescPairs_perm (softmax x)).mem_iff.mp hv))
  rw [topkValues]
  rw [h1, softmax_sum x hx] at h2
  exact h2

/-- Closed form for the total probability mass of the decoded distribution of
an encoded position. -/
lemma decodedProbs_sum (x : List ℝ) (k : ℕ) (hk : k ≤ x.length) :
    (decodedProbs (encode_forward_response_tensor x k) x.length k).sum
      = ((x.length : ℝ) - (k : ℝ))
          * Real.exp (Real.log (clamp (1 - (topkValues x k).sum) eps 1
              / ((x.length : ℝ) - (k : ℝ))))
        + ((topkValues x k).sum + (k : ℝ) * eps) := by
  have hvlen : (topkValues x k).length = k := topkValues_length x k hk
  have hilen : (topkIndices x k).length = k := topkIndices_length x k hk
  have hmlen : ((topkValues x k).map (fun v => v + eps)).length = k := by
    rw [List.length_map, hvlen]
  rw [decodedProbs_encode x k hk]
  rw [scatter_sum _ _
    (by
      rw [List.map_fst_zip _ _ (by omega)]
      exact topkIndices_nodup x k)
    (by
      intro q hq
      rw [List.length_replicate]
      obtain ⟨a, b⟩ := q
      exact topkIndices_lt x k a (List.of_mem_zip hq).1)]
  have hulen : ((topkIndices x k).zip ((topkValues x k).map (fun v => v + eps))).length = k := by
    rw [List.length_zip, hilen, hmlen]
    exact min_self k
  have h2 : (((topkIndices x k).zip ((topkValues x k).map (fun v => v + eps))).map
      (fun q => (List.replicate x.length
        (Real.exp (Real.log (clamp (1 - (topkValues x k).sum) eps 1
          / ((x.length : ℝ) - (k : ℝ)))))).getD q.1 0)).sum
      = (k : ℝ) * Real.exp (Real.log (clamp (1 - (topkValues x k).sum) eps 1
          / ((x.length : ℝ) - (k : ℝ)))) := by
    rw [List.map_congr_left (g := fun _ =>
        Real.exp (Real.log (clamp (1 - (topkValues x k).sum) eps 1
          / ((x.length : ℝ) - (k : ℝ)))))
      (fun q hq => by
        obtain ⟨a, b⟩ := q
        exact getD_replicate _ _ _ (topkIndices_lt x k a (List.of_mem_zip hq).1))]
    rw [List.map_const', hulen, List.sum_replicate, nsmul_eq_mul]
  have h3 : (((topkIndices x k).zip ((topkValues x k).map (fun v => v + eps))).map
      Prod.snd).sum = (topkValues x k).sum + (k : ℝ) * eps := by
    rw [List.map_snd_zip _ _ (by omega), sum_map_add_const, hvlen]
  rw [h2, h3, List.sum_replicate, nsmul_eq_mul]
  ring

/-! ### Claim theorems -/

/-- C1: for any probability vector p summing to 1 and any valid k (bounded by
the int64 tensor-index range), the full-vocabulary distribution reconstructed
by decode(encode(p, k)) — with the decoder's log-space output read back as
probabilities by exponentiation — sums to 1 within 1e-6. -/
theorem C1_roundtrip_sum (p : List ℝ) (k : ℕ) (hp : p.sum = 1) (hk0 : 0 < k)
    (hk : k ≤ p.length) (hk64 : k ≤ 2 ^ 63) :
    |(decodedProbs (encode_forward_response_tensor p k) p.length k).sum - 1| ≤ 1 / 10 ^ 6 := by
  have hpne : p ≠ [] := by
    intro h
    subst h
    simp at hk
    omega
  have hm0 := topkValues_sum_nonneg p k
  have hm1 := topkValues_sum_le_one p k hpne
  have hkcast : (k : ℝ) ≤ 2 ^ 63 := by exact_mod_cast hk64
  have hke : (k : ℝ) * eps ≤ 2 ^ 63 * eps :=
    mul_le_mul_of_nonneg_right hkcast (le_of_lt eps_pos)
  have hke0 : (0:ℝ) ≤ (k : ℝ) * eps := mul_nonneg (Nat.cast_nonneg k) (le_of_lt eps_pos)
  have hbound : (2:ℝ) ^ 63 * eps + eps ≤ 1 / 10 ^ 6 := by norm_num [eps]
  rw [decodedProbs_sum p k hk]
  set m := (topkValues p k).sum with hmdef
  rcases lt_or_eq_of_le hk with hlt | heq
  · have hVk : (0:ℝ) < (p.length : ℝ) - (k : ℝ) := by
      have hc : (k:ℝ) < (p.length : ℝ) := by exact_mod_cast hlt
      linarith
    have hcl : 0 < clamp (1 - m) eps 1 := lt_of_lt_of_le eps_pos (le_max_left _ _)
    rw [Real.exp_log (div_pos hcl hVk), mul_comm, div_mul_cancel₀ _ (ne_of_gt hVk)]
    have hmin : min (1 - m) 1 = 1 - m := min_eq_left (by linarith)
    rw [clamp, hmin]
    have hub : max eps (1 - m) ≤ 1 - m + eps := max_le (by linarith) (by linarith)
    have hlb : 1 - m ≤ max eps (1 - m) := le_max_right _ _
    rw [abs_le]
    constructor <;> linarith
  · have h0 : (p.length : ℝ) - (k : ℝ) = 0 := by
      rw [heq]
      ring
    rw [h0, zero_mul, zero_add]
    have hmass : m = 1 := by
      rw [hmdef, topkValues]
      have hlen : ((sortDescPairs (softmax p)).map Prod.fst).length ≤ k := by
        rw [List.length_map, sortDescPairs_length, softmax_length, ← heq]
      rw [List.take_of_length_le hlen,
        (map_fst_sortDescPairs_perm (softmax p)).sum_eq, softmax_sum p hpne]
    rw [hmass, abs_le]
    constructor <;> linarith

theorem C1_roundtrip_sum_witness :
    |(decodedProbs (encode_forward_response_tensor [1, 0] 1)
        (List.length [(1:ℝ), 0]) 1).sum - 1| ≤ 1 / 10 ^ 6 :=
  C1_roundtrip_sum [1, 0] 1 (by norm_num [List.sum_cons, List.sum_nil]) (by norm_num)
    (by norm_num) (by norm_num)

/-- C6: encode keeps, per position, the top k (value, index) pairs of the
softmaxed per-position scores, concatenating values then indices into a
length-2k vector, independently per batch element and sequence position (a
pure map, no side effects); the wire tensor has shape [batch, sequence_len,
2k], with the first k entries per position probabilities in descending order
and the last k integer-valued vocabulary ids reinterpreted as floats. -/
theorem C6_encode_shape (t : List (List (List ℝ))) (k V : ℕ) (hk0 : 0 < k) (hkV : k ≤ V)
    (hV : ∀ bat ∈ t, ∀ x ∈ bat, x.length = V) :
    encodeBatch t k = t.map (fun bat => bat.map (fun x => encode_forward_response_tensor x k)) ∧
    (encodeBatch t k).length = t.length ∧
    ∀ bat ∈ t, ∀ x ∈ bat,
      (encode_forward_response_tensor x k).length = 2 * k ∧
      List.Sorted (fun a b : ℝ => b ≤ a) ((encode_forward_response_tensor x k).take k) ∧
      (∀ v ∈ (encode_forward_response_tensor x k).take k, 0 ≤ v ∧ v ≤ 1) ∧
      (∀ w ∈ (encode_forward_response_tensor x k).drop k, ∃ i : ℕ, i < V ∧ w = (i : ℝ)) := by
  refine ⟨rfl, by rw [encodeBatch, List.length_map], fun bat hbat x hx => ?_⟩
  have hxV : x.length = V := hV bat hbat x hx
  have hk : k ≤ x.length := by omega
  have hxne : x ≠ [] := by
    intro h
    subst h
    simp at hxV
    omega
  refine ⟨?_, ?_, ?_, ?_⟩
  · rw [encode_forward_response_tensor, List.length_append, List.length_map,
      topkValues_length x k hk, topkIndices_length x k hk]
    omega
  · rw [encode_take x k hk]
    exact topkValues_sorted x k
  · rw [encode_take x k hk]
    intro v hv
    exact ⟨softmax_nonneg x v (topkValues_mem x k v hv),
      softmax_le_one x hxne v (topkValues_mem x k v hv)⟩
  · rw [encode_drop x k hk]
    intro w hw
    obtain ⟨i, hi, rfl⟩ := List.mem_map.mp hw
    exact ⟨i, by have := topkIndices_lt x k i hi; omega, rfl⟩

theorem C6_encode_shape_witness :
    (encodeBatch [[[0, 0]]] 1).length = ([[[(0:ℝ), 0]]] : List (List (List ℝ))).length :=
  (C6_encode_shape [[[0, 0]]] 1 2 (by norm_num) (by norm_num)
    (by
      intro bat hbat x hx
      simp only [List.mem_singleton] at hbat
      subst hbat
      simp only [List.mem_singleton] at hx
      subst hx
      rfl)).2.1

/-- C7: for every encoded input with non-negative top-k values and k strictly
below the vocabulary size, every entry of the decoder's log-space output is
the logarithm of a strictly positive quantity: the remainder mass is clamped
to at least eps = 1e-64 before the division and eps is added to the top-k
values before the log, so numeric underflow is recovered locally and no
minus-infinity or NaN can surface to the caller. -/
theorem C7_decode_finite (enc : List ℝ) (V k : ℕ) (hk : k < V)
    (hnn : ∀ v ∈ enc.take k, 0 ≤ v) (y : ℝ)
    (hy : y ∈ decode_forward_response_tensor enc V k) :
    ∃ t : ℝ, 0 < t ∧ y = Real.log t := by
  simp only [decode_forward_response_tensor] at hy
  rcases scatter_mem _ _ _ hy with h | h
  · refine ⟨clamp (1 - (enc.take k).sum) eps 1 / ((V : ℝ) - (k : ℝ)), ?_,
      List.eq_of_mem_replicate h⟩
    apply div_pos
    · exact lt_of_lt_of_le eps_pos (le_max_left _ _)
    · have hcast : (k : ℝ) < (V : ℝ) := by exact_mod_cast hk
      linarith
  · obtain ⟨pr, hpr, hpr2⟩ := List.mem_map.mp h
    obtain ⟨a, b⟩ := pr
    have hb : b ∈ (enc.take k).map (fun v => Real.log (v + eps)) := (List.of_mem_zip hpr).2
    obtain ⟨v, hv, rfl⟩ := List.mem_map.mp hb
    refine ⟨v + eps, ?_, hpr2.symm⟩
    have h1 := hnn v hv
    have h2 := eps_pos
    linarith

theorem C7_decode_finite_witness :
    ∃ t : ℝ, 0 < t ∧ (0 : ℝ) = Real.log t := by
  have hdec : decode_forward_response_tensor [] 2 1
      = List.replicate 2 (Real.log (clamp (1 - (0:ℝ)) eps 1 / ((2:ℝ) - (1:ℝ)))) := by
    norm_num [decode_forward_response_tensor]
    exact scatter_nil _
  have hc : clamp (1 - (0:ℝ)) eps 1 = 1 := by
    rw [clamp, sub_zero, min_self, max_eq_right (by norm_num [eps] : eps ≤ (1:ℝ))]
  have hmem : (0 : ℝ) ∈ decode_forward_response_tensor [] 2 1 := by
    rw [hdec, hc]
    norm_num [List.mem_replicate, Real.log_one]
  exact C7_decode_finite [] 2 1 (by norm_num) (by simp) 0 hmem

/-- C8: the tokenizer equivalence checker is reflexive, reports two
independently loaded instances of the same named tokenizer as equivalent, and
reports tokenizers with different vocabulary or merge rules as not
equivalent; it is a pure (deterministic, side-effect-free) function. -/
theorem C8_tokenizer_equivalence (t a b : Tokenizer) (registry : String → Tokenizer)
    (name : String) (hab : a.vocab ≠ b.vocab ∨ a.merges ≠ b.merges) :
    check_tokenizer_equivalence t t = true ∧
    check_tokenizer_equivalence (load_tokenizer registry name)
      (load_tokenizer registry name) = true ∧
    check_tokenizer_equivalence a b = false := by
  refine ⟨by simp [check_tokenizer_equivalence], by simp [check_tokenizer_equivalence], ?_⟩
  rcases hab with h | h <;> simp [check_tokenizer_equivalence, h]

theorem C8_tokenizer_equivalence_witness :
    check_tokenizer_equivalence (Tokenizer.mk ["a"] []) (Tokenizer.mk ["a"] []) = true ∧
    check_tokenizer_equivalence
      (load_tokenizer (fun _ => Tokenizer.mk ["a"] []) "gpt2")
      (load_tokenizer (fun _ => Tokenizer.mk ["a"] []) "gpt2") = true ∧
    check_tokenizer_equivalence (Tokenizer.mk ["a"] []) (Tokenizer.mk ["b"] []) = false :=
  C8_tokenizer_equivalence (Tokenizer.mk ["a"] []) (Tokenizer.mk ["a"] [])
    (Tokenizer.mk ["b"] []) (fun _ => Tokenizer.mk ["a"] []) "gpt2"
    (Or.inl (by decide))

/-- C9: the encoder accepts arbitrary real-valued (unnormalized) logits: for
every input and valid k, the first k entries of the encoded vector are
strictly positive, sorted in non-increasing order, and sum to at most 1,
because a softmax normalization is applied internally before the top-k
selection. -/
theorem C9_encode_softmax_normalizes (x : List ℝ) (k : ℕ) (hk : k ≤ x.length) :
    (∀ v ∈ (encode_forward_response_tensor x k).take k, 0 < v) ∧
    List.Sorted (fun a b : ℝ => b ≤ a) ((encode_forward_response_tensor x k).take k) ∧
    ((encode_forward_response_tensor x k).take k).sum ≤ 1 := by
  rw [encode_take x k hk]
  refine ⟨?_, topkValues_sorted x k, ?_⟩
  · intro v hv
    rcases eq_or_ne x [] with rfl | hx
    · simp [topkValues, sortDescPairs, softmax] at hv
    · exact softmax_pos x hx v (topkValues_mem x k v hv)
  · rcases eq_or_ne x [] with rfl | hx
    · simp [topkValues, sortDescPairs, softmax]
    · have h1 : ((sortDescPairs (softmax x)).map Prod.fst).sum = (softmax x).sum :=
        (map_fst_sortDescPairs_perm (softmax x)).sum_eq
      have h2 := sum_take_le ((sortDescPairs (softmax x)).map Prod.fst) k
        (fun v hv => softmax_nonneg x v ((map_fst_sortDescPairs_perm (softmax x)).mem_iff.mp hv))
      rw [topkValues]
      rw [h1, softmax_sum x hx] at h2
      exact h2

theorem C9_encode_softmax_normalizes_witness :
    ((encode_forward_response_tensor [0, 0] 1).take 1).sum ≤ 1 :=
  (C9_encode_softmax_normalizes [0, 0] 1 (by norm_num)).2.2

/-- C10: the k index entries of every encoded position are pairwise distinct
vocabulary ids below the vocabulary size (they come from a full descending
sort), and for k < vocab_size the decoder's scatter overwrites exactly those
k distinct entries, leaving exactly vocab_size - k entries at the uniform
floor value. -/
theorem C10_indices_distinct (x : List ℝ) (k : ℕ) (hk : k ≤ x.length) :
    (topkIndices x k).Nodup ∧
    (∀ i ∈ topkIndices x k, i < x.length) ∧
    (topkIndices x k).length = k ∧
    (k < x.length →
      ((List.range x.length).filter (fun i => decide (i ∉ topkIndices x k))).length
          = x.length - k ∧
      ∀ i ∈ List.range x.length, i ∉ topkIndices x k →
        (decode_forward_response_tensor (encode_forward_response_tensor x k)
            x.length k).getD i 0
          = Real.log (clamp (1 - (topkValues x k).sum) eps 1
              / ((x.length : ℝ) - (k : ℝ)))) := by
  refine ⟨topkIndices_nodup x k, fun i hi => topkIndices_lt x k i hi,
    topkIndices_length x k hk, fun hklt => ⟨?_, ?_⟩⟩
  · have hb : (fun i => decide (i ∉ topkIndices x k))
        = (fun i => !(decide (i ∈ topkIndices x k))) := by
      funext i
      simp [decide_not]
    have hsplit := length_filter_split (List.range x.length)
      (fun i => decide (i ∈ topkIndices x k))
    have hperm : ((List.range x.length).filter
        (fun i => decide (i ∈ topkIndices x k))).Perm (topkIndices x k) := by
      refine (List.perm_ext_iff_of_nodup
        (List.Nodup.filter _ (List.nodup_range x.length)) (topkIndices_nodup x k)).mpr ?_
      intro a
      simp only [List.mem_filter, List.mem_range, decide_eq_true_eq]
      exact ⟨fun h => h.2, fun h => ⟨topkIndices_lt x k a h, h⟩⟩
    have hlen := hperm.length_eq
    rw [topkIndices_length x k hk] at hlen
    rw [List.length_range] at hsplit
    rw [hb]
    omega
  · intro i hi hmem
    rw [decode_encode x k hk]
    exact scatter_replicate_getD_not_mem _ _ _ _
      (by rw [List.length_map, topkValues_length x k hk, topkIndices_length x k hk])
      i (List.mem_range.mp hi) hmem

theorem C10_indices_distinct_witness :
    (topkIndices [0, 0] 1).length = 1 :=
  (C10_indices_distinct [0, 0] 1 (by norm_num)).2.2.1

/-! ### Concrete evaluations used by the counterexamples -/

lemma sortDescPairs_single (a : ℝ) : sortDescPairs [a] = [(a, 0)] := by
  show List.insertionSort rdesc [(a, 0)] = _
  simp [List.insertionSort, List.orderedInsert]

lemma sortDescPairs_pair (a b : ℝ) (h : b ≤ a) : sortDescPairs [a, b] = [(a, 0), (b, 1)] := by
  have hr : rdesc (a, 0) (b, 1) := h
  show List.insertionSort rdesc [(a, 0), (b, 1)] = _
  simp only [List.insertionSort, List.orderedInsert]
  rw [if_pos hr]

lemma softmax_single (a : ℝ) : softmax [a] = [1] := by
  simp [softmax, div_self (Real.exp_ne_zero a)]

lemma softmax_pair (a b : ℝ) :
    softmax [a, b] = [Real.exp a / (Real.exp a + Real.exp b),
      Real.exp b / (Real.exp a + Real.exp b)] := by
  simp [softmax]

lemma softmax_one_zero :
    softmax [1, 0] = [Real.exp 1 / (Real.exp 1 + 1), 1 / (Real.exp 1 + 1)] := by
  rw [softmax_pair, Real.exp_zero]

lemma exp_add_one_pos : (0:ℝ) < Real.exp 1 + 1 := by positivity

lemma one_le_exp_one : (1:ℝ) ≤ Real.exp 1 := by
  have h := Real.add_one_le_exp 1
  linarith

lemma sortDescPairs_softmax_one_zero :
    sortDescPairs (softmax [1, 0])
      = [(Real.exp 1 / (Real.exp 1 + 1), 0), (1 / (Real.exp 1 + 1), 1)] := by
  rw [softmax_one_zero]
  exact sortDescPairs_pair _ _
    ((div_le_div_iff_of_pos_right exp_add_one_pos).mpr one_le_exp_one)

lemma encode_zero_k3 : encode_forward_response_tensor [0] 3 = [1, 0] := by
  rw [encode_forward_response_tensor, topkValues, topkIndices, softmax_single,
    sortDescPairs_single]
  simp

lemma encode_zero_k1 : encode_forward_response_tensor [0] 1 = [1, 0] := by
  rw [encode_forward_response_tensor, topkValues, topkIndices, softmax_single,
    sortDescPairs_single]
  simp

lemma encode_one_zero_k1 :
    encode_forward_response_tensor [1, 0] 1 = [Real.exp 1 / (Real.exp 1 + 1), 0] := by
  rw [encode_forward_response_tensor, topkValues, topkIndices,
    sortDescPairs_softmax_one_zero]
  simp

lemma encode_one_zero_k2 :
    encode_forward_response_tensor [1, 0] 2
      = [Real.exp 1 / (Real.exp 1 + 1), 1 / (Real.exp 1 + 1), 0, 1] := by
  rw [encode_forward_response_tensor, topkValues, topkIndices,
    sortDescPairs_softmax_one_zero]
  simp

lemma one_sub_exp_frac : 1 - Real.exp 1 / (Real.exp 1 + 1) = 1 / (Real.exp 1 + 1) := by
  field_simp

lemma eps_le_one_sub_exp_frac : eps ≤ 1 - Real.exp 1 / (Real.exp 1 + 1) := by
  rw [one_sub_exp_frac]
  have he9 := Real.exp_one_lt_d9
  have hS := exp_add_one_pos
  have hSle : Real.exp 1 + 1 ≤ 10 ^ 64 := by nlinarith
  calc eps = 1 / 10 ^ 64 := rfl
    _ ≤ 1 / (Real.exp 1 + 1) := one_div_le_one_div_of_le hS hSle

lemma clamp_exp_frac :
    clamp (1 - Real.exp 1 / (Real.exp 1 + 1)) eps 1 = 1 - Real.exp 1 / (Real.exp 1 + 1) := by
  rw [clamp, min_eq_left (by
      have : (0:ℝ) ≤ Real.exp 1 / (Real.exp 1 + 1) := by positivity
      linarith),
    max_eq_right eps_le_one_sub_exp_frac]

lemma exp_frac_add_eps_lt_one : Real.exp 1 / (Real.exp 1 + 1) + eps < 1 := by
  have hS := exp_add_one_pos
  have he9 := Real.exp_one_lt_d9
  have heps : eps = 1 / 10 ^ 64 := rfl
  have key : Real.exp 1 + eps * (Real.exp 1 + 1) < Real.exp 1 + 1 := by
    rw [heps]
    nlinarith
  have hrw : Real.exp 1 / (Real.exp 1 + 1) + eps
      = (Real.exp 1 + eps * (Real.exp 1 + 1)) / (Real.exp 1 + 1) := by
    field_simp
  rw [hrw, div_lt_one hS]
  exact key

lemma decodedProbs_one_zero :
    decodedProbs (encode_forward_response_tensor [1, 0] 1) 2 1
      = [Real.exp 1 / (Real.exp 1 + 1) + eps, 1 - Real.exp 1 / (Real.exp 1 + 1)] := by
  rw [encode_one_zero_k1]
  have hform : ([Real.exp 1 / (Real.exp 1 + 1)] : List ℝ)
      ++ ([0] : List ℕ).map (fun i : ℕ => (i : ℝ))
      = [Real.exp 1 / (Real.exp 1 + 1), 0] := by simp
  rw [← hform]
  have h := decodedProbs_append_scatter [Real.exp 1 / (Real.exp 1 + 1)] [0] 2
    (by
      intro v hv
      simp only [List.mem_singleton] at hv
      subst hv
      positivity)
  simp only [List.length_singleton, List.sum_cons, List.sum_nil, add_zero,
    Nat.cast_one, Nat.cast_ofNat] at h
  rw [show (2:ℝ) - 1 = 1 by norm_num, div_one] at h
  rw [h, clamp_exp_frac, Real.exp_log (by
    rw [one_sub_exp_frac]
    positivity)]
  rfl

lemma decodedProbs_one_zero_k2 :
    decodedProbs (encode_forward_response_tensor [1, 0] 2) 2 2
      = [Real.exp 1 / (Real.exp 1 + 1) + eps, 1 / (Real.exp 1 + 1) + eps] := by
  rw [encode_one_zero_k2]
  have hform : ([Real.exp 1 / (Real.exp 1 + 1), 1 / (Real.exp 1 + 1)] : List ℝ)
      ++ ([0, 1] : List ℕ).map (fun i : ℕ => (i : ℝ))
      = [Real.exp 1 / (Real.exp 1 + 1), 1 / (Real.exp 1 + 1), 0, 1] := by simp
  rw [← hform]
  have h := decodedProbs_append_scatter
    [Real.exp 1 / (Real.exp 1 + 1), 1 / (Real.exp 1 + 1)] [0, 1] 2
    (by
      intro v hv
      simp only [List.mem_cons, List.mem_singleton, List.not_mem_nil, or_false] at hv
      rcases hv with rfl | rfl <;> positivity)
  have hsum : ([Real.exp 1 / (Real.exp 1 + 1), 1 / (Real.exp 1 + 1)] : List ℝ).sum = 1 := by
    simp only [List.sum_cons, List.sum_nil, add_zero]
    rw [div_add_div_same, div_self (ne_of_gt exp_add_one_pos)]
  simp only [List.length_cons, List.length_singleton, List.length_nil, Nat.cast_ofNat] at h
  rw [hsum] at h
  have hclamp0 : clamp (1 - (1:ℝ)) eps 1 = eps := by
    rw [clamp, sub_self, min_eq_left (by norm_num : (0:ℝ) ≤ 1),
      max_eq_left (le_of_lt eps_pos)]
  rw [hclamp0] at h
  rw [show ((2:ℝ) - (((0:ℕ) + 1 + 1 : ℕ) : ℝ)) = 0 by push_cast; ring] at h
  rw [div_zero, Real.log_zero, Real.exp_zero] at h
  rw [h]
  rfl

/-- C2 counterexample: for the probability vector p = [1, 0] (sum 1) and k = 1,
the largest (value, id) entry of the decoded vector is not the largest entry
of p: encode softmaxes its input again, and decode adds 1e-64 before the log,
so the decoded top entry is exp(1)/(exp(1)+1) + 1e-64 ≠ 1. -/
theorem C2_cex :
    ¬ ((sortDescPairs (decodedProbs (encode_forward_response_tensor [1, 0] 1) 2 1)).take 1
        = (sortDescPairs [(1:ℝ), 0]).take 1) := by
  rw [decodedProbs_one_zero]
  have hS := exp_add_one_pos
  have hsorted1 : sortDescPairs [Real.exp 1 / (Real.exp 1 + 1) + eps,
      1 - Real.exp 1 / (Real.exp 1 + 1)]
      = [(Real.exp 1 / (Real.exp 1 + 1) + eps, 0),
         (1 - Real.exp 1 / (Real.exp 1 + 1), 1)] := by
    refine sortDescPairs_pair _ _ ?_
    rw [one_sub_exp_frac]
    have h1 : 1 / (Real.exp 1 + 1) ≤ Real.exp 1 / (Real.exp 1 + 1) :=
      (div_le_div_iff_of_pos_right hS).mpr one_le_exp_one
    have h2 := eps_pos
    linarith
  have hsorted2 : sortDescPairs [(1:ℝ), 0] = [(1, 0), (0, 1)] :=
    sortDescPairs_pair 1 0 (by norm_num)
  rw [hsorted1, hsorted2]
  intro hcontra
  simp only [List.take_succ_cons, List.take_zero, List.cons.injEq, Prod.mk.injEq,
    and_true] at hcontra
  have := exp_frac_add_eps_lt_one
  linarith [hcontra]

/-- C2 amended: for every logits vector x and every valid k, the entry of
decode(encode(x, k)) — read back as probabilities — at the j-th top-k
vocabulary id equals the j-th top-k entry of softmax(x) plus 1e-64 (the
encoder normalizes its input with softmax, and the decoder adds 1e-64 before
taking the log), rather than the j-th top-k entry of x itself exactly. -/
theorem C2_amended (x : List ℝ) (k j : ℕ) (hk : k ≤ x.length) (hj : j < k) :
    (decodedProbs (encode_forward_response_tensor x k) x.length k).getD
        ((topkIndices x k).getD j 0) 0
      = (topkValues x k).getD j 0 + eps :=
  decodedProbs_encode_getD x k j hk hj

theorem C2_amended_witness :
    (decodedProbs (encode_forward_response_tensor [1, 0] 1)
        (List.length [(1:ℝ), 0]) 1).getD ((topkIndices [1, 0] 1).getD 0 0) 0
      = (topkValues [1, 0] 1).getD 0 0 + eps :=
  C2_amended [1, 0] 1 0 (by norm_num) (by norm_num)

/-- C3 counterexample: for the probability vector p = [1, 0] and k equal to the
full vocabulary size 2, decode(encode(p, 2)) read back as probabilities is
[exp(1)/(exp(1)+1) + 1e-64, 1/(exp(1)+1) + 1e-64], not p: the round trip is
not lossless. -/
theorem C3_cex :
    ¬ (decodedProbs (encode_forward_response_tensor [1, 0] 2) 2 2 = [(1:ℝ), 0]) := by
  rw [decodedProbs_one_zero_k2]
  intro hcontra
  simp only [List.cons.injEq] at hcontra
  have := exp_frac_add_eps_lt_one
  linarith [hcontra.1]

/-- C3 amended: for every nonempty logits vector x, decoding an encoding taken
with k equal to the full vocabulary size reproduces softmax(x) with 1e-64
added to every entry (not x itself): decode(encode(x, vocab_size)) read back
as probabilities equals softmax(x) + 1e-64 pointwise. -/
theorem C3_amended (x : List ℝ) (_hx : x ≠ []) :
    decodedProbs (encode_forward_response_tensor x x.length) x.length x.length
      = (softmax x).map (fun v => v + eps) := by
  have hV : (topkIndices x x.length).length = x.length :=
    topkIndices_length x x.length le_rfl
  have hdlen : (decodedProbs (encode_forward_response_tensor x x.length)
      x.length x.length).length = x.length := by
    rw [decodedProbs, List.length_map]
    simp only [decode_forward_response_tensor]
    rw [scatter_length, List.length_replicate]
  have hrlen : ((softmax x).map (fun v => v + eps)).length = x.length := by
    rw [List.length_map, softmax_length]
  apply List.ext_getElem?
  intro n
  rcases lt_or_ge n x.length with hn | hn
  · have h1 : n < (decodedProbs (encode_forward_response_tensor x x.length)
        x.length x.length).length := by omega
    have h2 : n < ((softmax x).map (fun v => v + eps)).length := by omega
    rw [List.getElem?_eq_getElem h1, List.getElem?_eq_getElem h2]
    have hgd1 : (decodedProbs (encode_forward_response_tensor x x.length)
        x.length x.length)[n] = (decodedProbs (encode_forward_response_tensor x x.length)
        x.length x.length).getD n 0 := by
      rw [List.getD_eq_getElem?_getD, List.getElem?_eq_getElem h1]
      rfl
    have hgd2 : ((softmax x).map (fun v => v + eps))[n]
        = (softmax x).getD n 0 + eps := by
      have hns : n < (softmax x).length := by rw [softmax_length]; omega
      rw [List.getElem_map]
      congr 1
      rw [List.getD_eq_getElem?_getD, List.getElem?_eq_getElem hns]
      rfl
    rw [hgd1, hgd2]
    -- find the sorted position j whose id is n
    have hmem : n ∈ topkIndices x x.length := by
      rw [topkIndices, List.take_of_length_le
        (by rw [List.length_map, sortDescPairs_length, softmax_length])]
      refine (map_snd_sortDescPairs_perm (softmax x)).mem_iff.mpr ?_
      rw [softmax_length]
      exact List.mem_range.mpr hn
    obtain ⟨j, hjlt, hjeq⟩ := List.mem_iff_getElem.mp hmem
    have hjk : j < x.length := by omega
    have hjD : (topkIndices x x.length).getD j 0 = n := by
      rw [List.getD_eq_getElem?_getD, List.getElem?_eq_getElem hjlt, hjeq]
      rfl
    have hmain := decodedProbs_encode_getD x x.length j le_rfl hjk
    rw [hjD] at hmain
    have hpair := topk_pair_mem x x.length j le_rfl hjk
    rw [hjD] at hpair
    have hval := (sortDescPairs_mem (softmax x) _ hpair).2
    dsimp only at hval
    rw [hmain, hval]
  · rw [List.getElem?_eq_none (by omega), List.getElem?_eq_none (by omega)]

theorem C3_amended_witness :
    decodedProbs (encode_forward_response_tensor [0] (List.length [(0:ℝ)]))
        (List.length [(0:ℝ)]) (List.length [(0:ℝ)])
      = (softmax [0]).map (fun v => v + eps) :=
  C3_amended [0] (by simp)

/-- C4 counterexample: encode does not fail when k exceeds the vocabulary
size; for the single-token vocabulary [0] and k = 3 it silently returns the
same ordinary encoding as the valid call with k = 1 (Python slicing clamps k),
with no InvalidK error anywhere in the code. -/
theorem C4_cex :
    encode_forward_response_tensor [0] 3 = encode_forward_response_tensor [0] 1 ∧
    encode_forward_response_tensor [0] 3 = [1, 0] :=
  ⟨encode_zero_k3.trans encode_zero_k1.symm, encode_zero_k3⟩

/-- C4 amended: encode performs no validation of k: it is a total function,
and any k at least the vocabulary size is silently clamped by the top-k
slicing, producing exactly the encoding for k = vocab_size; no InvalidK (or
any other) error is raised for structurally invalid k. -/
theorem C4_amended (x : List ℝ) (k : ℕ) (hk : x.length ≤ k) :
    encode_forward_response_tensor x k = encode_forward_response_tensor x x.length := by
  have hv : ((sortDescPairs (softmax x)).map Prod.fst).length ≤ x.length := by
    rw [List.length_map, sortDescPairs_length, softmax_length]
  have hi : ((sortDescPairs (softmax x)).map Prod.snd).length ≤ x.length := by
    rw [List.length_map, sortDescPairs_length, softmax_length]
  rw [encode_forward_response_tensor, encode_forward_response_tensor,
    topkValues, topkValues, topkIndices, topkIndices,
    List.take_of_length_le (le_trans hv hk), List.take_of_length_le (le_trans hi hk),
    List.take_of_length_le hv, List.take_of_length_le hi]

theorem C4_amended_witness :
    encode_forward_response_tensor [0] 3
      = encode_forward_response_tensor [0] (List.length [(0:ℝ)]) :=
  C4_amended [0] 3 (by norm_num)

/-- C5 counterexample: for the encoded position [1/2, 0] (top-1 value 1/2 at
id 0) with vocab size 2, the decoder does assign the uniform floor to the
non-top-k id, but the entry at the top-k id is 1/2 + 1e-64, not the encoded
value 1/2 exactly (the decoder writes log(value + 1e-64)). -/
theorem C5_cex :
    ¬ (((decodedProbs [1/2, 0] 2 1).getD 1 0
          = clamp (1 - (1/2 : ℝ)) eps 1 / ((2 : ℝ) - 1)) ∧
       (decodedProbs [1/2, 0] 2 1).getD 0 0 = 1/2) := by
  have hcl : clamp (1 - (1/2 : ℝ)) eps 1 = 1/2 := by
    rw [clamp, min_eq_left (by norm_num : (1:ℝ) - 1/2 ≤ 1),
      max_eq_right (by norm_num [eps] : eps ≤ (1:ℝ) - 1/2)]
    norm_num
  have hform : ([1/2] : List ℝ) ++ ([0] : List ℕ).map (fun i : ℕ => (i : ℝ))
      = [1/2, 0] := by norm_num
  have h := decodedProbs_append_scatter [1/2] [0] 2 (by norm_num)
  simp only [List.length_singleton, List.sum_cons, List.sum_nil, add_zero,
    Nat.cast_one, Nat.cast_ofNat, hform] at h
  rw [show (2:ℝ) - 1 = 1 by norm_num, div_one, hcl,
    Real.exp_log (by norm_num : (0:ℝ) < 1/2)] at h
  intro hcontra
  have h2 := hcontra.2
  rw [h] at h2
  have hgd : (scatter (List.replicate 2 (1/2 : ℝ))
      (([0] : List ℕ).zip (([1/2] : List ℝ).map (fun v => v + eps)))).getD 0 0
      = 1/2 + eps := rfl
  rw [hgd] at h2
  have := eps_pos
  linarith

/-- C5 amended: for every encoded position with k < vocab_size, distinct
in-range top-k indices and non-negative top-k values, decode assigns to every
id not among the top-k indices the uniform floor
clamp(1 - sum(topk_values), 1e-64, 1) / (vocab_size - k), and overwrites the
entries at the top-k indices with the encoded values plus 1e-64 (overwrite,
not floor + value; the 1e-64 comes from the log(value + eps) in the source). -/
theorem C5_amended (vals : List ℝ) (idx : List ℕ) (V : ℕ) (hlen : idx.length = vals.length)
    (hk : vals.length < V) (hnd : idx.Nodup) (hlt : ∀ i ∈ idx, i < V)
    (hnn : ∀ v ∈ vals, 0 ≤ v) :
    (∀ pos, pos < V → pos ∉ idx →
      (decodedProbs (vals ++ idx.map (fun i : ℕ => (i : ℝ))) V vals.length).getD pos 0
        = clamp (1 - vals.sum) eps 1 / ((V : ℝ) - (vals.length : ℝ))) ∧
    (∀ j, j < idx.length →
      (decodedProbs (vals ++ idx.map (fun i : ℕ => (i : ℝ))) V vals.length).getD
          (idx.getD j 0) 0
        = vals.getD j 0 + eps) := by
  have hVk : (0:ℝ) < (V : ℝ) - (vals.length : ℝ) := by
    have hc : (vals.length : ℝ) < (V : ℝ) := by exact_mod_cast hk
    linarith
  have hcl : 0 < clamp (1 - vals.sum) eps 1 := lt_of_lt_of_le eps_pos (le_max_left _ _)
  have hfl : 0 < clamp (1 - vals.sum) eps 1 / ((V : ℝ) - (vals.length : ℝ)) :=
    div_pos hcl hVk
  constructor
  · intro pos hpos hmem
    rw [decodedProbs_append_scatter vals idx V hnn,
      scatter_replicate_getD_not_mem _ _ _ _ (by rw [List.length_map]; exact hlen)
        pos hpos hmem,
      Real.exp_log hfl]
  · intro j hj
    rw [decodedProbs_append_scatter vals idx V hnn]
    have hjv : j < vals.length := by omega
    have hmap : (vals.map (fun v => v + eps)).getD j 0 = vals.getD j 0 + eps := by
      rw [List.getD_eq_getElem?_getD, List.getD_eq_getElem?_getD,
        List.getElem?_eq_getElem
          (by rw [List.length_map]; omega : j < (vals.map (fun v => v + eps)).length),
        List.getElem?_eq_getElem hjv]
      simp [List.getElem_map]
    rw [← hmap]
    exact scatter_replicate_getD_mem _ _ _ _ hnd (by rw [List.length_map]; exact hlen)
      hlt j hj

theorem C5_amended_witness :
    (decodedProbs ([1/2] ++ ([0] : List ℕ).map (fun i : ℕ => (i : ℝ))) 2
        (List.length [(1:ℝ)/2])).getD 1 0
      = clamp (1 - ([1/2] : List ℝ).sum) eps 1
          / ((2 : ℝ) - ((List.length [(1:ℝ)/2] : ℕ) : ℝ)) :=
  (C5_amended [1/2] [0] 2 (by norm_num) (by norm_num) (by norm_num)
    (by intro i hi; simp only [List.mem_singleton] at hi; omega)
    (by intro v hv; simp only [List.mem_singleton] at hv; subst hv; norm_num)).1
    1 (by norm_num) (by norm_num)

end TokenizerUtils
